import Mathlib

/-
  Verification of the BSP window-tiling layout engine.

  The tree-based engine (window creation, split-target selection, layout
  solving, resizing, closing, reset) is embedded as pure functions over an
  explicit state; the legacy flat engine is embedded separately.  Machine
  floats are modelled by rationals; `Math.random()` selection is modelled by
  an explicit natural-number parameter; DOM side effects (element creation,
  CSS classes, timers) are dropped, keeping only the data they carry
  (the per-window closing flag).
-/

namespace Tiling

/-- A percentage-unit bounding box, as stored in a leaf's cachedRect. -/
structure Rect where
  x : ℚ
  y : ℚ
  width : ℚ
  height : ℚ
deriving DecidableEq

/-- Split orientation: vertical puts children side by side. -/
inductive Orientation where
  | vertical
  | horizontal
deriving DecidableEq

/-- The data carried by one leaf (pane): its window id, its fairness
counter, whether its element is marked closing, and its cached rect. -/
structure LeafData where
  id : Nat
  splitCount : Nat
  closing : Bool
  rect : Rect
deriving DecidableEq

/-- A layout-tree node: a leaf pane or a binary split. -/
inductive WNode where
  | leaf (d : LeafData)
  | split (o : Orientation) (ratio : ℚ) (first second : WNode)
deriving DecidableEq

/-- Number(x.toFixed(4)): round to four decimal places, half away from
zero for the non-negative inputs it is applied to. -/
def round4 (x : ℚ) : ℚ := ((Int.floor (x * 10000 + 1/2) : ℤ) : ℚ) / 10000

/-- clampPercentage: Number(Math.max(0, value).toFixed(4)). -/
def clampPercentage (x : ℚ) : ℚ := round4 (max 0 x)

/-- applyLayout: recursive layout solver; records each leaf's cachedRect and
splits each allocation with the gap between the children.  Returns the tree
with updated cachedRects. -/
def applyLayout : WNode → Rect → ℚ → ℚ → WNode
  | .leaf d, r, _, _ => .leaf { d with rect := r }
  | .split o ratio a b, r, gx, gy =>
    match o with
    | .vertical =>
      let usable := max (r.width - gx) 0
      let fW := clampPercentage (usable * ratio)
      let sW := clampPercentage (usable - fW)
      .split o ratio (applyLayout a ⟨r.x, r.y, fW, r.height⟩ gx gy)
        (applyLayout b ⟨r.x + fW + gx, r.y, sW, r.height⟩ gx gy)
    | .horizontal =>
      let usable := max (r.height - gy) 0
      let fH := clampPercentage (usable * ratio)
      let sH := clampPercentage (usable - fH)
      .split o ratio (applyLayout a ⟨r.x, r.y, r.width, fH⟩ gx gy)
        (applyLayout b ⟨r.x, r.y + fH + gy, r.width, sH⟩ gx gy)

/-- The window ids of the leaves of a tree, in left-to-right order. -/
def leafIds : WNode → List Nat
  | .leaf d => [d.id]
  | .split _ _ a b => leafIds a ++ leafIds b

/-- Leaf ids of an optional root (empty when the root is null). -/
def leafIdsO : Option WNode → List Nat
  | none => []
  | some t => leafIds t

/-- Find the leaf with a given window id in a tree. -/
def leafOfId : WNode → Nat → Option LeafData
  | .leaf d, i => if d.id = i then some d else none
  | .split _ _ a b, i =>
    match leafOfId a i with
    | some d => some d
    | none => leafOfId b i

/-- Find the leaf with a given window id under an optional root. -/
def leafOfIdO : Option WNode → Nat → Option LeafData
  | none, _ => none
  | some t, i => leafOfId t i

/-- cachedRect area of a leaf. -/
def area (d : LeafData) : ℚ := d.rect.width * d.rect.height

/-- The reduce callback of selectLeafToSplit for 2-3 leaves: keep the
accumulator unless the current leaf has strictly larger area, or equal
area and strictly smaller splitCount. -/
def pick (largest current : LeafData) : LeafData :=
  if area current = area largest then
    (if current.splitCount < largest.splitCount then current else largest)
  else if area largest < area current then current else largest

/-- "current is strictly preferred over largest" in the 2-3 leaf selection:
larger area, or equal area with smaller splitCount. -/
def better (c l : LeafData) : Prop :=
  (area c = area l ∧ c.splitCount < l.splitCount) ∨ area l < area c

instance decBetter (c l : LeafData) : Decidable (better c l) := by
  unfold better
  exact inferInstance

/-- selectLeafToSplit, acting on the registry's leaves in insertion order;
the rand parameter stands for the Math.random() draw used when four or
more leaves tie on minimum splitCount. -/
def selectFromLeaves (leaves : List LeafData) (rand : Nat) : Option LeafData :=
  match leaves with
  | [] => none
  | [l] => some l
  | hd :: tl =>
    if 4 ≤ (hd :: tl).length then
      let m := List.foldl Nat.min hd.splitCount (tl.map (fun x => x.splitCount))
      match (hd :: tl).filter (fun x => x.splitCount == m) with
      | [] => none
      | c :: cs => some ((c :: cs).getD (rand % (c :: cs).length) c)
    else
      some (List.foldl pick hd tl)

/-- determineSplitOrientation: prefer vertical when the target leaf is wide
relative to its height, with a laxer threshold once four or more windows
exist; len is windowsById.size at call time. -/
def determineSplitOrientation (len : Nat) (d : LeafData) : Orientation :=
  if 4 ≤ len then
    (if d.rect.height * (3/4) < d.rect.width then .vertical else .horizontal)
  else
    (if d.rect.height < d.rect.width then .vertical else .horizontal)

/-- The orientation decision of addNewWindowTargeted: an explicit valid
orientation wins; otherwise the very first split is forced vertical;
otherwise the heuristic decides. -/
def chooseOrientation (len : Nat) (orient : Option Orientation) (d : LeafData) :
    Orientation :=
  match orient with
  | some o => o
  | none => if len = 1 then .vertical else determineSplitOrientation len d

/-- splitLeaf: replace the target leaf by a split node with ratio 0.5 whose
first child is the target (splitCount incremented) and whose second child is
the new leaf (sharing the incremented splitCount). -/
def splitLeafInTree : WNode → Nat → LeafData → Orientation → WNode
  | .leaf d, i, nd, o =>
    if d.id = i then
      .split o (1/2) (.leaf { d with splitCount := d.splitCount + 1 })
        (.leaf { nd with splitCount := d.splitCount + 1 })
    else .leaf d
  | .split so r a b, i, nd, o =>
    .split so r (splitLeafInTree a i nd o) (splitLeafInTree b i nd o)

/-- removeLeafFromTree: none when the whole tree was that single leaf;
otherwise promote the sibling of the removed leaf into the parent's slot. -/
def removeLeafT : WNode → Nat → Option WNode
  | .leaf d, i => if d.id = i then none else some (.leaf d)
  | .split o r a b, i =>
    match removeLeafT a i, removeLeafT b i with
    | none, _ => some b
    | some a', none => some a'
    | some a', some b' => some (.split o r a' b')

/-- The sibling subtree of the leaf with id i, when that leaf has a parent. -/
def isLeafId : WNode → Nat → Bool
  | .leaf d, i => d.id == i
  | .split _ _ _ _, _ => false

def siblingOf : WNode → Nat → Option WNode
  | .leaf _, _ => none
  | .split _ _ a b, i =>
    if isLeafId a i then some b
    else if isLeafId b i then some a
    else
      match siblingOf a i with
      | some s => some s
      | none => siblingOf b i

/-- s occurs (syntactically, with all descendants, orientations and ratios)
as a subtree of t. -/
def IsSubtree : WNode → WNode → Prop
  | s, .leaf d => s = .leaf d
  | s, .split o r a b => s = .split o r a b ∨ IsSubtree s a ∨ IsSubtree s b

/-- Set the ratio of the split node at the given root path (false = first
child, true = second child); the leaf cases cannot occur for a drag on a
real resize handle. -/
def setRatioAt : WNode → List Bool → ℚ → WNode
  | .leaf d, _, _ => .leaf d
  | .split o _ a b, [], q => .split o q a b
  | .split o r a b, false :: p, q => .split o r (setRatioAt a p q) b
  | .split o r a b, true :: p, q => .split o r a (setRatioAt b p q)

/-- The clamp of doResize: Math.max(0.1, Math.min(0.9, newRatio)). -/
def clampRatio (q : ℚ) : ℚ := max (1/10) (min (9/10) q)

/-- The mutable module state: layoutRoot, windowCounter, the windowsById
keys in Map insertion order, and the current gap percentages. -/
structure State where
  root : Option WNode
  counter : Nat
  registry : List Nat
  gapX : ℚ
  gapY : ℚ
deriving DecidableEq

def fullRect : Rect := ⟨0, 0, 100, 100⟩

/-- updateWindowLayout: recompute the whole tree's geometry from the full
workspace rect. -/
def updateLayout (s : State) : State :=
  { s with root := s.root.map (fun t => applyLayout t fullRect s.gapX s.gapY) }

/-- The leaves of the registry in insertion order
(Array.from(windowsById.values())). -/
def leavesOf (s : State) : List LeafData :=
  s.registry.filterMap (fun i => leafOfIdO s.root i)

/-- addNewWindowTargeted: allocate the next id, install as root if the tree
is empty, otherwise split the requested (or automatically selected) leaf,
register the id, recompute the layout, and return the new id. -/
def addNewWindowTargeted (s : State) (target : Option Nat)
    (orient : Option Orientation) (rand : Nat) : State × Nat :=
  let id := s.counter + 1
  let newLeaf : LeafData := { id := id, splitCount := 0, closing := false, rect := fullRect }
  let s1 :=
    match s.root with
    | none =>
      { s with root := some (.leaf newLeaf), counter := id, registry := s.registry ++ [id] }
    | some r =>
      let tgt : Option LeafData :=
        match target with
        | some t => if t ∈ s.registry then leafOfId r t else selectFromLeaves (leavesOf s) rand
        | none => selectFromLeaves (leavesOf s) rand
      match tgt with
      | some d =>
        let o := chooseOrientation s.registry.length orient d
        { s with root := some (splitLeafInTree r d.id newLeaf o), counter := id,
                 registry := s.registry ++ [id] }
      | none =>
        { s with root := some (.leaf newLeaf), counter := id, registry := s.registry ++ [id] }
  (updateLayout s1, id)

/-- getAllWindowIds: the registry keys in Map insertion order. -/
def getAllWindowIds (s : State) : List Nat := s.registry

/-- closeWindow: silently ignore an unknown id or a pane already marked
closing; otherwise remove the leaf from the tree (promoting its sibling),
drop the id from the registry, and recompute the layout. -/
def closeWindow (s : State) (i : Nat) : State :=
  if i ∈ s.registry then
    match leafOfIdO s.root i with
    | none => s
    | some d =>
      if d.closing then s
      else
        updateLayout
          { s with root := Option.bind s.root (fun r => removeLeafT r i),
                   registry := s.registry.erase i }
  else s

/-- One resize-drag move event on the split at the given path: the raw
value stands for startRatio plus the pointer-delta-derived ratio delta, and
is clamped to the 0.1 to 0.9 band before being stored. -/
def resizeMove (s : State) (path : List Bool) (raw : ℚ) : State :=
  updateLayout { s with root := s.root.map (fun t => setRatioAt t path (clampRatio raw)) }

/-- resetToHome: empty the registry, clear the root, zero the counter, then
perform one automatic addNewWindow. -/
def resetToHome (s : State) (rand : Nat) : State :=
  (addNewWindowTargeted { s with root := none, counter := 0, registry := [] } none none rand).1

/-- The public operations, each carrying the external inputs it consumes:
the Math.random draw, the pointer-derived raw ratio, or the viewport-derived
gap percentages. -/
inductive Op where
  | add (rand : Nat)
  | addTargeted (target : Option Nat) (orient : Option Orientation) (rand : Nat)
  | splitV (target : Nat) (rand : Nat)
  | splitH (target : Nat) (rand : Nat)
  | close (i : Nat)
  | resize (path : List Bool) (raw : ℚ)
  | setGaps (gx gy : ℚ)
  | reset (rand : Nat)

/-- Run one operation, returning the new state and the window ids it
assigned (reset assigns one, via its inner addNewWindow). -/
def stepTrace (s : State) : Op → State × List Nat
  | .add rand =>
    let p := addNewWindowTargeted s none none rand
    (p.1, [p.2])
  | .addTargeted target orient rand =>
    let p := addNewWindowTargeted s target orient rand
    (p.1, [p.2])
  | .splitV target rand =>
    let p := addNewWindowTargeted s (some target) (some .vertical) rand
    (p.1, [p.2])
  | .splitH target rand =>
    let p := addNewWindowTargeted s (some target) (some .horizontal) rand
    (p.1, [p.2])
  | .close i => (closeWindow s i, [])
  | .resize path raw => (resizeMove s path raw, [])
  | .setGaps gx gy => (updateLayout { s with gapX := gx, gapY := gy }, [])
  | .reset rand =>
    let s0 : State := { s with root := none, counter := 0, registry := [] }
    let p := addNewWindowTargeted s0 none none rand
    (p.1, [p.2])

/-- Run a list of operations, collecting all assigned window ids. -/
def execT : State → List Op → State × List Nat
  | s, [] => (s, [])
  | s, op :: ops =>
    let p := stepTrace s op
    let q := execT p.1 ops
    (q.1, p.2 ++ q.2)

/-- The empty initial state (before the startup addNewWindow). -/
def initState : State := { root := none, counter := 0, registry := [], gapX := 0, gapY := 0 }

/-- The state after running a list of operations from the empty state. -/
def execState (ops : List Op) : State := (execT initState ops).1

end Tiling

namespace Flat

/-- A window record of the legacy flat implementation. -/
structure FlatWin where
  id : Nat
  x : ℚ
  y : ℚ
  width : ℚ
  height : ℚ
  splitCount : Nat
deriving DecidableEq

/-- The legacy module state: the window list, the counter, and the current
gap percentages. -/
structure FlatState where
  windows : List FlatWin
  counter : Nat
  gapX : ℚ
  gapY : ℚ
deriving DecidableEq

def dummyFlat : FlatWin := { id := 0, x := 0, y := 0, width := 0, height := 0, splitCount := 0 }

def areaF (w : FlatWin) : ℚ := w.width * w.height

/-- The index of the window the legacy addNewWindow chooses to split: with
four or more windows, a rand-indexed pick among those of minimum splitCount;
otherwise the earliest window of maximum area. -/
def selectFlatIdx (ws : List FlatWin) (rand : Nat) : Nat :=
  if 4 ≤ ws.length then
    let m :=
      match ws.map (fun w => w.splitCount) with
      | [] => 0
      | a :: l => List.foldl Nat.min a l
    match (List.range ws.length).filter (fun i => (ws.getD i dummyFlat).splitCount == m) with
    | [] => 0
    | c :: cs => (c :: cs).getD (rand % (c :: cs).length) c
  else
    List.foldl
      (fun acc i =>
        if areaF (ws.getD acc dummyFlat) < areaF (ws.getD i dummyFlat) then i else acc)
      0 (List.range ws.length)

/-- The orientation preference of the legacy addNewWindow: the 0.75
threshold once four or more windows exist, plain width-versus-height
otherwise. -/
def preferVerticalFlat (ws : List FlatWin) (w : FlatWin) : Bool :=
  if 4 ≤ ws.length then decide (w.height * (3/4) < w.width) else decide (w.height < w.width)

/-- The window the legacy addNewWindow selects to split. -/
def selWinFlat (ws : List FlatWin) (rand : Nat) : FlatWin :=
  ws.getD (selectFlatIdx ws rand) dummyFlat

/-- The legacy addNewWindow: install a full-screen first window, or halve
the selected window along the preferred axis; when the halved extent minus
the gap falls below 1 percent the split refuses, the counter is rolled
back, and the state is returned unchanged. -/
def addNewWindowFlat (s : FlatState) (rand : Nat) : FlatState :=
  match s.windows with
  | [] =>
    { s with
      windows := [{ id := s.counter + 1, x := 0, y := 0, width := 100, height := 100,
                    splitCount := 0 }],
      counter := s.counter + 1 }
  | _ :: _ =>
    let ws := s.windows
    let idx := selectFlatIdx ws rand
    let w := selWinFlat ws rand
    if preferVerticalFlat ws w then
      let newWidth := (w.width - s.gapX) / 2
      if newWidth < 1 then s
      else
        let updated := { w with width := newWidth, splitCount := w.splitCount + 1 }
        let nw : FlatWin :=
          { id := s.counter + 1, x := w.x + newWidth + s.gapX, y := w.y,
            width := newWidth, height := w.height, splitCount := w.splitCount + 1 }
        { s with windows := ws.set idx updated ++ [nw], counter := s.counter + 1 }
    else
      let newHeight := (w.height - s.gapY) / 2
      if newHeight < 1 then s
      else
        let updated := { w with height := newHeight, splitCount := w.splitCount + 1 }
        let nw : FlatWin :=
          { id := s.counter + 1, x := w.x, y := w.y + newHeight + s.gapY,
            width := w.width, height := newHeight, splitCount := w.splitCount + 1 }
        { s with windows := ws.set idx updated ++ [nw], counter := s.counter + 1 }

end Flat

namespace Tiling

lemma updateLayout_registry (s : State) : (updateLayout s).registry = s.registry := rfl

lemma updateLayout_counter (s : State) : (updateLayout s).counter = s.counter := rfl

/-- Every branch of addNewWindowTargeted appends the fresh id to the
registry and advances the counter by one. -/
lemma add_registry_counter (s : State) (target : Option Nat)
    (orient : Option Orientation) (rand : Nat) :
    ((addNewWindowTargeted s target orient rand).1.registry = s.registry ++ [s.counter + 1]) ∧
      ((addNewWindowTargeted s target orient rand).1.counter = s.counter + 1) ∧
      ((addNewWindowTargeted s target orient rand).2 = s.counter + 1) := by
  unfold addNewWindowTargeted
  cases s.root with
  | none => exact ⟨rfl, rfl, rfl⟩
  | some r =>
    simp only []
    rcases htgt : (match target with
      | some t => if t ∈ s.registry then leafOfId r t else selectFromLeaves (leavesOf s) rand
      | none => selectFromLeaves (leavesOf s) rand) with _ | d <;>
      simp [htgt, updateLayout_registry, updateLayout_counter]

/-- Running a block of automatic adds appends the next block of consecutive
ids to the registry. -/
lemma execT_adds (rs : List Nat) : ∀ s : State,
    ((execT s (rs.map Op.add)).1.registry
        = s.registry ++ List.range' (s.counter + 1) rs.length) ∧
      (execT s (rs.map Op.add)).1.counter = s.counter + rs.length := by
  induction rs with
  | nil => intro s; simp [execT]
  | cons r rs ih =>
    intro s
    have h := add_registry_counter s none none r
    have h2 := ih (addNewWindowTargeted s none none r).1
    obtain ⟨ha, hb, -⟩ := h
    obtain ⟨h2a, h2b⟩ := h2
    simp only [List.map_cons, execT, stepTrace] at *
    rw [h2a, h2b, ha, hb]
    constructor
    · rw [List.length_cons, List.range'_succ]
      simp
    · simp
      omega

/-- C1: starting from the empty layout, any sequence of n addNewWindow
calls (whatever the random draws) with no intervening closes leaves
getAllWindowIds returning exactly the list 1, 2, ..., n: length n, strictly
increasing, hence distinct. -/
theorem claim_C1 (rs : List Nat) :
    getAllWindowIds (execState (rs.map Op.add)) = List.range' 1 rs.length ∧
      (getAllWindowIds (execState (rs.map Op.add))).length = rs.length ∧
      List.Pairwise (· < ·) (getAllWindowIds (execState (rs.map Op.add))) := by
  have h := (execT_adds rs initState).1
  simp only [execState, getAllWindowIds]
  rw [h]
  refine ⟨by simp [initState], by simp [initState], ?_⟩
  have : initState.registry ++ List.range' (initState.counter + 1) rs.length
      = List.range' 1 rs.length := by simp [initState]
  rw [this]
  exact List.pairwise_lt_range' 1 rs.length

end Tiling

namespace Flat

/-- C10: in the legacy flat implementation, when halving the selected
window's extent on the preferred axis minus the gap would drop below 1
percent, the split refuses and addNewWindow leaves the counter and the
window list completely unchanged. -/
theorem claim_C10 (s : FlatState) (rand : Nat) (hne : s.windows ≠ []) :
    (preferVerticalFlat s.windows (selWinFlat s.windows rand) = true →
        ((selWinFlat s.windows rand).width - s.gapX) / 2 < 1 →
        addNewWindowFlat s rand = s) ∧
      (preferVerticalFlat s.windows (selWinFlat s.windows rand) = false →
        ((selWinFlat s.windows rand).height - s.gapY) / 2 < 1 →
        addNewWindowFlat s rand = s) := by
  rcases s with ⟨ws, c, gx, gy⟩
  cases ws with
  | nil => exact absurd rfl hne
  | cons w0 rest =>
    constructor <;> intro hp hlt <;>
      simp only [addNewWindowFlat] at * <;>
      simp [hp, hlt]

/-- Witness for C10: a single 1.5 percent wide, 1 percent tall window with
zero gaps; the vertical split would yield 0.75 percent, so the add is a
silent no-op and the window set does not grow. -/
theorem claim_C10_witness :
    addNewWindowFlat
        { windows := [{ id := 1, x := 0, y := 0, width := 3/2, height := 1, splitCount := 0 }],
          counter := 1, gapX := 0, gapY := 0 } 0
      = { windows := [{ id := 1, x := 0, y := 0, width := 3/2, height := 1, splitCount := 0 }],
          counter := 1, gapX := 0, gapY := 0 } :=
  (claim_C10
      { windows := [{ id := 1, x := 0, y := 0, width := 3/2, height := 1, splitCount := 0 }],
        counter := 1, gapX := 0, gapY := 0 } 0 (by simp)).1
    (by norm_num [preferVerticalFlat, selWinFlat, selectFlatIdx, areaF, List.range,
      List.range.loop, List.getD])
    (by norm_num [selWinFlat, selectFlatIdx, areaF, List.range, List.range.loop, List.getD])

end Flat

namespace Tiling

/-- C8: with no explicit orientation, the very first split (exactly one
leaf existed) is forced vertical; with at least four leaves the decision is
vertical exactly when width exceeds 0.75 times height; with two or three
leaves it is vertical exactly when width exceeds height, horizontal
otherwise. -/
theorem claim_C8 :
    (∀ d : LeafData, chooseOrientation 1 none d = .vertical) ∧
      (∀ (len : Nat) (d : LeafData), 4 ≤ len →
        (chooseOrientation len none d = .vertical ↔ d.rect.height * (3/4) < d.rect.width)) ∧
      (∀ (len : Nat) (d : LeafData), len = 2 ∨ len = 3 →
        ((chooseOrientation len none d = .vertical ↔ d.rect.height < d.rect.width) ∧
          (chooseOrientation len none d = .horizontal ↔ ¬ d.rect.height < d.rect.width))) := by
  refine ⟨fun d => rfl, fun len d h4 => ?_, fun len d h23 => ?_⟩
  · have hne : len ≠ 1 := by omega
    simp only [chooseOrientation, determineSplitOrientation, if_neg hne, if_pos h4]
    split_ifs with h
    · simp [h]
    · simp [h]
  · have hne : len ≠ 1 := by omega
    have hlt : ¬ 4 ≤ len := by omega
    simp only [chooseOrientation, determineSplitOrientation, if_neg hne, if_neg hlt]
    split_ifs with h
    · simp [h]
    · simp [h]

/-- Witness for C8: a 100 by 80 leaf; with four leaves present 100 exceeds
0.75 times 80 so the split is vertical, with two leaves 100 exceeds 80 so it
is also vertical, and the first split is forced vertical. -/
theorem claim_C8_witness :
    chooseOrientation 1 none
        { id := 1, splitCount := 0, closing := false, rect := ⟨0, 0, 100, 80⟩ } = .vertical ∧
      chooseOrientation 4 none
        { id := 1, splitCount := 0, closing := false, rect := ⟨0, 0, 100, 80⟩ } = .vertical ∧
      chooseOrientation 2 none
        { id := 1, splitCount := 0, closing := false, rect := ⟨0, 0, 100, 80⟩ } = .vertical := by
  refine ⟨claim_C8.1 _, ?_, ?_⟩
  · exact (claim_C8.2.1 4 _ (by norm_num)).2 (by norm_num)
  · exact ((claim_C8.2.2 2 _ (Or.inl rfl)).1).2 (by norm_num)

/-- Every split node of the tree has its ratio in the closed band
[0.1, 0.9]. -/
def ratiosBounded : WNode → Prop
  | .leaf _ => True
  | .split _ r a b => (1/10 ≤ r ∧ r ≤ 9/10) ∧ ratiosBounded a ∧ ratiosBounded b

def ratiosBoundedO : Option WNode → Prop
  | none => True
  | some t => ratiosBounded t

lemma ratiosBounded_applyLayout (t : WNode) :
    ∀ r gx gy, ratiosBounded t → ratiosBounded (applyLayout t r gx gy) := by
  induction t with
  | leaf d => intro r gx gy _; trivial
  | split o q a b iha ihb =>
    intro r gx gy h
    obtain ⟨hq, ha, hb⟩ := h
    cases o <;> exact ⟨hq, iha _ _ _ ha, ihb _ _ _ hb⟩

lemma ratiosBounded_splitLeaf (t : WNode) (i : Nat) (nd : LeafData) (o : Orientation) :
    ratiosBounded t → ratiosBounded (splitLeafInTree t i nd o) := by
  induction t with
  | leaf d =>
    intro _
    simp only [splitLeafInTree]
    split_ifs with h
    · exact ⟨by norm_num, trivial, trivial⟩
    · trivial
  | split so q a b iha ihb =>
    intro h
    exact ⟨h.1, iha h.2.1, ihb h.2.2⟩

lemma ratiosBounded_remove (t : WNode) (i : Nat) :
    ∀ t', ratiosBounded t → removeLeafT t i = some t' → ratiosBounded t' := by
  induction t with
  | leaf d =>
    intro t' _ h
    by_cases hid : d.id = i
    · simp [removeLeafT, hid] at h
    · simp only [removeLeafT, if_neg hid, Option.some.injEq] at h
      rw [← h]
      trivial
  | split o q a b iha ihb =>
    intro t' h hrem
    simp only [removeLeafT] at hrem
    rcases ha : removeLeafT a i with _ | x
    · rw [ha] at hrem
      simp only [Option.some.injEq] at hrem
      rw [← hrem]
      exact h.2.2
    · rcases hb : removeLeafT b i with _ | y
      · rw [ha, hb] at hrem
        simp only [Option.some.injEq] at hrem
        rw [← hrem]
        exact iha x h.2.1 ha
      · rw [ha, hb] at hrem
        simp only [Option.some.injEq] at hrem
        rw [← hrem]
        exact ⟨h.1, iha x h.2.1 ha, ihb y h.2.2 hb⟩

lemma clampRatio_mem (q : ℚ) : 1/10 ≤ clampRatio q ∧ clampRatio q ≤ 9/10 := by
  constructor
  · exact le_max_left _ _
  · exact max_le (by norm_num) (min_le_left _ _)

lemma ratiosBounded_setRatio (t : WNode) :
    ∀ p q, ratiosBounded t → (1/10 ≤ q ∧ q ≤ 9/10) → ratiosBounded (setRatioAt t p q) := by
  induction t with
  | leaf d => intro p q _ _; trivial
  | split o r a b iha ihb =>
    intro p q h hq
    match p with
    | [] => exact ⟨hq, h.2.1, h.2.2⟩
    | false :: p' => exact ⟨h.1, iha p' q h.2.1 hq, h.2.2⟩
    | true :: p' => exact ⟨h.1, h.2.1, ihb p' q h.2.2 hq⟩

lemma ratiosBounded_updateLayout (s : State) (h : ratiosBoundedO s.root) :
    ratiosBoundedO (updateLayout s).root := by
  rcases hroot : s.root with _ | r
  · simp [updateLayout, hroot, ratiosBoundedO]
  · rw [hroot] at h
    simp only [updateLayout, hroot, Option.map_some']
    exact ratiosBounded_applyLayout r _ _ _ h

lemma ratiosBounded_add (s : State) (target : Option Nat) (orient : Option Orientation)
    (rand : Nat) (h : ratiosBoundedO s.root) :
    ratiosBoundedO (addNewWindowTargeted s target orient rand).1.root := by
  unfold addNewWindowTargeted
  apply ratiosBounded_updateLayout
  rcases hroot : s.root with _ | r
  · simp only [hroot]
    exact trivial
  · rw [hroot] at h
    simp only [hroot]
    rcases htgt : (match target with
      | some t => if t ∈ s.registry then leafOfId r t else selectFromLeaves (leavesOf s) rand
      | none => selectFromLeaves (leavesOf s) rand) with _ | d
    · simp only [htgt]
      exact trivial
    · simp only [htgt]
      exact ratiosBounded_splitLeaf r _ _ _ h

lemma ratiosBounded_step (s : State) (op : Op) (h : ratiosBoundedO s.root) :
    ratiosBoundedO (stepTrace s op).1.root := by
  cases op with
  | add rand => exact ratiosBounded_add s none none rand h
  | addTargeted target orient rand => exact ratiosBounded_add s target orient rand h
  | splitV target rand => exact ratiosBounded_add s (some target) (some .vertical) rand h
  | splitH target rand => exact ratiosBounded_add s (some target) (some .horizontal) rand h
  | close i =>
    simp only [stepTrace]
    by_cases hmem : i ∈ s.registry
    · rcases hleaf : leafOfIdO s.root i with _ | d
      · simpa [closeWindow, hmem, hleaf] using h
      · by_cases hclosing : d.closing
        · simpa [closeWindow, hmem, hleaf, hclosing] using h
        · have hred : closeWindow s i
              = updateLayout
                  { s with
                    root := Option.bind s.root (fun r => removeLeafT r i),
                    registry := s.registry.erase i } := by
            simp [closeWindow, hmem, hleaf, hclosing]
          rw [hred]
          apply ratiosBounded_updateLayout
          rcases hroot : s.root with _ | r
          · exact trivial
          · rw [hroot] at h
            simp only [Option.some_bind]
            rcases hrem : removeLeafT r i with _ | t'
            · exact trivial
            · exact ratiosBounded_remove r i t' h hrem
    · simpa [closeWindow, hmem] using h
  | resize path raw =>
    simp only [stepTrace, resizeMove]
    apply ratiosBounded_updateLayout
    rcases hroot : s.root with _ | r
    · simp only [hroot, Option.map_none']
      exact trivial
    · rw [hroot] at h
      simp only [hroot, Option.map_some']
      exact ratiosBounded_setRatio r path (clampRatio raw) h (clampRatio_mem raw)
  | setGaps gx gy =>
    simp only [stepTrace]
    exact ratiosBounded_updateLayout _ h
  | reset rand =>
    exact ratiosBounded_add { s with root := none, counter := 0, registry := [] }
      none none rand trivial

lemma ratiosBounded_execT (ops : List Op) : ∀ s : State,
    ratiosBoundedO s.root → ratiosBoundedO (execT s ops).1.root := by
  induction ops with
  | nil => intro s h; exact h
  | cons op ops ih => intro s h; exact ih _ (ratiosBounded_step s op h)

/-- C3: every split node is constructed with ratio exactly 0.5, and in any
state reachable by public operations (including resize-drag move events of
arbitrary raw magnitude) every split node's ratio lies in [0.1, 0.9]. -/
theorem claim_C3 :
    (∀ (d nd : LeafData) (o : Orientation),
        splitLeafInTree (.leaf d) d.id nd o
          = .split o (1/2) (.leaf { d with splitCount := d.splitCount + 1 })
              (.leaf { nd with splitCount := d.splitCount + 1 })) ∧
      ∀ ops : List Op, ratiosBoundedO (execState ops).root := by
  constructor
  · intro d nd o
    simp [splitLeafInTree]
  · intro ops
    exact ratiosBounded_execT ops initState trivial

/-- Every split node of the tree has its ratio in [0, 1]. -/
def ratiosIn01 : WNode → Prop
  | .leaf _ => True
  | .split _ r a b => (0 ≤ r ∧ r ≤ 1) ∧ ratiosIn01 a ∧ ratiosIn01 b

/-- At every split visited by a layout recompute of t over allocation r,
the first child's size plus the second child's size is within 1e-4 of the
usable size (allocation minus gap, floored at 0) on the split axis, the
second size being the clamped complement of the first. -/
def sumsOk : WNode → Rect → ℚ → ℚ → Prop
  | .leaf _, _, _, _ => True
  | .split o ratio a b, r, gx, gy =>
    match o with
    | .vertical =>
      |clampPercentage (max (r.width - gx) 0 * ratio)
            + clampPercentage (max (r.width - gx) 0
                - clampPercentage (max (r.width - gx) 0 * ratio))
            - max (r.width - gx) 0| ≤ 1/10000 ∧
        sumsOk a ⟨r.x, r.y, clampPercentage (max (r.width - gx) 0 * ratio), r.height⟩ gx gy ∧
        sumsOk b ⟨r.x + clampPercentage (max (r.width - gx) 0 * ratio) + gx, r.y,
          clampPercentage (max (r.width - gx) 0
            - clampPercentage (max (r.width - gx) 0 * ratio)), r.height⟩ gx gy
    | .horizontal =>
      |clampPercentage (max (r.height - gy) 0 * ratio)
            + clampPercentage (max (r.height - gy) 0
                - clampPercentage (max (r.height - gy) 0 * ratio))
            - max (r.height - gy) 0| ≤ 1/10000 ∧
        sumsOk a ⟨r.x, r.y, r.width, clampPercentage (max (r.height - gy) 0 * ratio)⟩ gx gy ∧
        sumsOk b ⟨r.x, r.y + clampPercentage (max (r.height - gy) 0 * ratio) + gy, r.width,
          clampPercentage (max (r.height - gy) 0
            - clampPercentage (max (r.height - gy) 0 * ratio))⟩ gx gy

/-- The claim as literally stated: first size plus second size plus the gap
is within 1e-4 of the usable size on the split axis, at every split visited
by a recompute. -/
def claimedSumsOk : WNode → Rect → ℚ → ℚ → Prop
  | .leaf _, _, _, _ => True
  | .split o ratio a b, r, gx, gy =>
    match o with
    | .vertical =>
      |clampPercentage (max (r.width - gx) 0 * ratio)
            + clampPercentage (max (r.width - gx) 0
                - clampPercentage (max (r.width - gx) 0 * ratio))
            + gx - max (r.width - gx) 0| ≤ 1/10000 ∧
        claimedSumsOk a ⟨r.x, r.y, clampPercentage (max (r.width - gx) 0 * ratio), r.height⟩
          gx gy ∧
        claimedSumsOk b ⟨r.x + clampPercentage (max (r.width - gx) 0 * ratio) + gx, r.y,
          clampPercentage (max (r.width - gx) 0
            - clampPercentage (max (r.width - gx) 0 * ratio)), r.height⟩ gx gy
    | .horizontal =>
      |clampPercentage (max (r.height - gy) 0 * ratio)
            + clampPercentage (max (r.height - gy) 0
                - clampPercentage (max (r.height - gy) 0 * ratio))
            + gy - max (r.height - gy) 0| ≤ 1/10000 ∧
        claimedSumsOk a ⟨r.x, r.y, r.width, clampPercentage (max (r.height - gy) 0 * ratio)⟩
          gx gy ∧
        claimedSumsOk b ⟨r.x, r.y + clampPercentage (max (r.height - gy) 0 * ratio) + gy,
          r.width, clampPercentage (max (r.height - gy) 0
            - clampPercentage (max (r.height - gy) 0 * ratio))⟩ gx gy

lemma round4_le (x : ℚ) : round4 x ≤ x + 1/20000 := by
  have h := Int.floor_le (x * 10000 + 1/2)
  unfold round4
  rw [div_le_iff₀ (by norm_num : (0:ℚ) < 10000)]
  linarith

lemma round4_gt (x : ℚ) : x - 1/20000 < round4 x := by
  have h := Int.sub_one_lt_floor (x * 10000 + 1/2)
  unfold round4
  rw [lt_div_iff₀ (by norm_num : (0:ℚ) < 10000)]
  linarith

lemma clampPercentage_of_nonneg (x : ℚ) (hx : 0 ≤ x) : clampPercentage x = round4 x := by
  unfold clampPercentage
  rw [max_eq_right hx]

/-- The exact-complement computation loses at most half a rounding unit:
first plus second stays within 1e-4 of the usable size. -/
lemma clamp_sum (u q : ℚ) (hu : 0 ≤ u) (h0 : 0 ≤ q) (h1 : q ≤ 1) :
    |clampPercentage (u * q) + clampPercentage (u - clampPercentage (u * q)) - u|
      ≤ 1/10000 := by
  have hup : 0 ≤ u * q := mul_nonneg hu h0
  rw [clampPercentage_of_nonneg _ hup]
  have hfle : round4 (u * q) ≤ u * q + 1/20000 := round4_le _
  have hfgt : u * q - 1/20000 < round4 (u * q) := round4_gt _
  have huq : u * q ≤ u := mul_le_of_le_one_right hu h1
  by_cases hcase : 0 ≤ u - round4 (u * q)
  · rw [clampPercentage_of_nonneg _ hcase]
    have h2le := round4_le (u - round4 (u * q))
    have h2gt := round4_gt (u - round4 (u * q))
    rw [abs_le]
    constructor <;> linarith
  · push_neg at hcase
    have hz : clampPercentage (u - round4 (u * q)) = 0 := by
      unfold clampPercentage
      rw [max_eq_left hcase.le]
      unfold round4
      norm_num [Int.floor_eq_iff]
    rw [hz, abs_le]
    constructor <;> linarith

lemma sumsOk_of_ratios (t : WNode) :
    ∀ (r : Rect) (gx gy : ℚ), ratiosIn01 t → sumsOk t r gx gy := by
  induction t with
  | leaf d => intro r gx gy _; trivial
  | split o q a b iha ihb =>
    intro r gx gy h
    obtain ⟨⟨h0, h1⟩, ha, hb⟩ := h
    cases o with
    | vertical =>
      exact ⟨clamp_sum _ q (le_max_right _ _) h0 h1, iha _ gx gy ha, ihb _ gx gy hb⟩
    | horizontal =>
      exact ⟨clamp_sum _ q (le_max_right _ _) h0 h1, iha _ gx gy ha, ihb _ gx gy hb⟩

/-- C4 (amended): at every layout recompute, for every split node whose
ratio lies in [0, 1] (all reachable ratios do, by claim C3), the first
child's size plus the second child's size is within 1e-4 of the parent's
usable size (its allocation minus the gap) on the split axis - equivalently
first+second+gap matches the parent's allocation when the allocation is at
least the gap; the second size is computed as the clamped complement of the
first, never independently. -/
theorem claim_C4_amended (t : WNode) (r : Rect) (gx gy : ℚ) (h : ratiosIn01 t) :
    sumsOk t r gx gy :=
  sumsOk_of_ratios t r gx gy h

/-- Counterexample to C4 as stated: the tree built by two addNewWindow
calls under a gap of 10 percent - a vertical split of ratio 0.5 over the
full workspace.  There first = second = 45 and usable = 90, so
first + second + gap - usable = 10, far above the 1e-4 tolerance. -/
theorem claim_C4_counterexample :
    ¬ claimedSumsOk
        (.split .vertical (1/2)
          (.leaf { id := 1, splitCount := 1, closing := false, rect := fullRect })
          (.leaf { id := 2, splitCount := 1, closing := false, rect := fullRect }))
        fullRect 10 10 := by
  intro h
  have h1 := h.1
  have e1 : clampPercentage (max ((100 : ℚ) - 10) 0 * (1/2)) = 45 := by
    unfold clampPercentage round4
    norm_num [Int.floor_eq_iff]
  have e2 : clampPercentage (max ((100 : ℚ) - 10) 0 - 45) = 45 := by
    unfold clampPercentage round4
    norm_num [Int.floor_eq_iff]
  rw [show (fullRect.width : ℚ) = 100 from rfl, e1, e2] at h1
  rw [show max ((100 : ℚ) - 10) 0 = 90 from by norm_num] at h1
  norm_num at h1

/-- Witness for C4 (amended) at the same concrete tree and allocation. -/
theorem claim_C4_witness :
    ratiosIn01
        (.split .vertical (1/2)
          (.leaf { id := 1, splitCount := 1, closing := false, rect := fullRect })
          (.leaf { id := 2, splitCount := 1, closing := false, rect := fullRect })) ∧
      sumsOk
        (.split .vertical (1/2)
          (.leaf { id := 1, splitCount := 1, closing := false, rect := fullRect })
          (.leaf { id := 2, splitCount := 1, closing := false, rect := fullRect }))
        fullRect 10 10 := by
  have h : ratiosIn01
      (WNode.split .vertical (1/2)
        (.leaf { id := 1, splitCount := 1, closing := false, rect := fullRect })
        (.leaf { id := 2, splitCount := 1, closing := false, rect := fullRect })) := by
    refine ⟨⟨by norm_num, by norm_num⟩, trivial, trivial⟩
  exact ⟨h, claim_C4_amended _ fullRect 10 10 h⟩

/-- C5: closeWindow is idempotent - closing the same id twice equals
closing it once - and closing an id absent from the registry, or a pane
whose element is already marked closing, leaves the state completely
unchanged. -/
theorem claim_C5 (s : State) (i : Nat) (hnd : s.registry.Nodup) :
    closeWindow (closeWindow s i) i = closeWindow s i ∧
      (i ∉ s.registry → closeWindow s i = s) ∧
      (∀ d : LeafData, leafOfIdO s.root i = some d → d.closing = true →
        closeWindow s i = s) := by
  have closeWindow_not_mem : ∀ (s' : State), i ∉ s'.registry → closeWindow s' i = s' := by
    intro s' h
    simp [closeWindow, h]
  refine ⟨?_, closeWindow_not_mem s, ?_⟩
  · by_cases hmem : i ∈ s.registry
    · rcases hleaf : leafOfIdO s.root i with _ | d
      · have hid : closeWindow s i = s := by simp [closeWindow, hmem, hleaf]
        simp only [hid]
      · by_cases hcl : d.closing
        · have hid : closeWindow s i = s := by simp [closeWindow, hmem, hleaf, hcl]
          simp only [hid]
        · have hred : closeWindow s i
              = updateLayout
                  { s with
                    root := Option.bind s.root (fun r => removeLeafT r i),
                    registry := s.registry.erase i } := by
            simp [closeWindow, hmem, hleaf, hcl]
          have hnotmem : i ∉ (closeWindow s i).registry := by
            rw [hred, updateLayout_registry]
            exact hnd.not_mem_erase
          exact closeWindow_not_mem _ hnotmem
    · have hid : closeWindow s i = s := closeWindow_not_mem s hmem
      simp only [hid]
  · intro d hleaf hcl
    by_cases hmem : i ∈ s.registry
    · simp [closeWindow, hmem, hleaf, hcl]
    · simp [closeWindow, hmem]

/-- Witness for C5 at the empty state: closing id 1 is a no-op, twice the
same as once. -/
theorem claim_C5_witness :
    closeWindow (closeWindow initState 1) 1 = closeWindow initState 1 ∧
      closeWindow initState 1 = initState :=
  ⟨(claim_C5 initState 1 List.nodup_nil).1,
    (claim_C5 initState 1 List.nodup_nil).2.1 (by simp [initState])⟩

/-- Whether a public operation is resetToHome. -/
def isReset : Op → Bool
  | .reset _ => true
  | _ => false

lemma closeWindow_counter (s : State) (i : Nat) : (closeWindow s i).counter = s.counter := by
  by_cases h : i ∈ s.registry
  · rcases hleaf : leafOfIdO s.root i with _ | d
    · simp [closeWindow, h, hleaf]
    · by_cases hcl : d.closing <;> simp [closeWindow, h, hleaf, hcl, updateLayout]
  · simp [closeWindow, h]

/-- In a reset-free run, every assigned id exceeds the starting counter,
the assigned ids strictly increase, and the counter never decreases. -/
lemma execT_mono (ops : List Op) : ∀ s : State,
    (∀ op ∈ ops, isReset op = false) →
    (∀ x ∈ (execT s ops).2, s.counter < x) ∧
      List.Pairwise (· < ·) (execT s ops).2 ∧
      s.counter ≤ (execT s ops).1.counter := by
  induction ops with
  | nil => intro s _; simp [execT]
  | cons op ops ih =>
    intro s hnr
    have hrest : ∀ op' ∈ ops, isReset op' = false := fun op' h' => hnr op' (by simp [h'])
    have main : ∀ (target : Option Nat) (orient : Option Orientation) (rand : Nat),
        stepTrace s op
            = ((addNewWindowTargeted s target orient rand).1,
                [(addNewWindowTargeted s target orient rand).2]) →
        (∀ x ∈ (execT s (op :: ops)).2, s.counter < x) ∧
          List.Pairwise (· < ·) (execT s (op :: ops)).2 ∧
          s.counter ≤ (execT s (op :: ops)).1.counter := by
      intro target orient rand hstep
      have hadd := add_registry_counter s target orient rand
      obtain ⟨hmem, hpw, hcnt⟩ := ih (addNewWindowTargeted s target orient rand).1 hrest
      rw [hadd.2.1] at hmem hcnt
      simp only [execT, hstep, hadd.2.2]
      refine ⟨?_, ?_, by omega⟩
      · intro x hx
        simp only [List.cons_append, List.nil_append, List.mem_cons] at hx
        rcases hx with hx | hx
        · omega
        · have := hmem x hx
          omega
      · simp only [List.cons_append, List.nil_append]
        exact List.Pairwise.cons (fun x hx => hmem x hx) hpw
    have quiet : ∀ s' : State, stepTrace s op = (s', []) → s'.counter = s.counter →
        (∀ x ∈ (execT s (op :: ops)).2, s.counter < x) ∧
          List.Pairwise (· < ·) (execT s (op :: ops)).2 ∧
          s.counter ≤ (execT s (op :: ops)).1.counter := by
      intro s' hstep hcnt
      obtain ⟨hmem, hpw, hc⟩ := ih s' hrest
      rw [hcnt] at hmem hc
      simp only [execT, hstep]
      exact ⟨fun x hx => hmem x (by simpa using hx), by simpa using hpw, hc⟩
    cases op with
    | add rand => exact main none none rand rfl
    | addTargeted target orient rand => exact main target orient rand rfl
    | splitV target rand => exact main (some target) (some .vertical) rand rfl
    | splitH target rand => exact main (some target) (some .horizontal) rand rfl
    | close i => exact quiet _ rfl (closeWindow_counter s i)
    | resize path raw => exact quiet _ rfl rfl
    | setGaps gx gy => exact quiet _ rfl rfl
    | reset rand => exact absurd (hnr (.reset rand) (by simp)) (by simp [isReset])

/-- Every assigned id is positive, resets included. -/
lemma execT_pos (ops : List Op) : ∀ s : State, ∀ x ∈ (execT s ops).2, 0 < x := by
  induction ops with
  | nil => intro s x hx; simp [execT] at hx
  | cons op ops ih =>
    intro s x hx
    have hsplit : ∀ (ids : List Nat) (s' : State), stepTrace s op = (s', ids) →
        (∀ y ∈ ids, 0 < y) → 0 < x := by
      intro ids s' hstep hids
      simp only [execT, hstep, List.mem_append] at hx
      rcases hx with hx | hx
      · exact hids x hx
      · exact ih s' x hx
    cases op with
    | add rand =>
      refine hsplit _ _ rfl ?_
      intro y hy
      simp only [List.mem_singleton] at hy
      have := (add_registry_counter s none none rand).2.2
      omega
    | addTargeted target orient rand =>
      refine hsplit _ _ rfl ?_
      intro y hy
      simp only [List.mem_singleton] at hy
      have := (add_registry_counter s target orient rand).2.2
      omega
    | splitV target rand =>
      refine hsplit _ _ rfl ?_
      intro y hy
      simp only [List.mem_singleton] at hy
      have := (add_registry_counter s (some target) (some .vertical) rand).2.2
      omega
    | splitH target rand =>
      refine hsplit _ _ rfl ?_
      intro y hy
      simp only [List.mem_singleton] at hy
      have := (add_registry_counter s (some target) (some .horizontal) rand).2.2
      omega
    | close i => exact hsplit _ _ rfl (by simp)
    | resize path raw => exact hsplit _ _ rfl (by simp)
    | setGaps gx gy => exact hsplit _ _ rfl (by simp)
    | reset rand =>
      refine hsplit _ _ rfl ?_
      intro y hy
      simp only [List.mem_singleton] at hy
      have := (add_registry_counter
        { s with root := none, counter := 0, registry := [] } none none rand).2.2
      simp only [] at this
      omega

/-- C6 (amended): every id assigned by a window-creating operation is a
positive integer, and within any operation sequence containing no
resetToHome the assigned ids strictly increase, each exceeding every
previously assigned id, hence none is ever reused; resetToHome, however,
zeroes the counter, after which ids restart from 1 and are reused. -/
theorem claim_C6_amended (ops : List Op) :
    (∀ x ∈ (execT initState ops).2, 0 < x) ∧
      ((∀ op ∈ ops, isReset op = false) →
        List.Pairwise (· < ·) (execT initState ops).2) :=
  ⟨execT_pos ops initState, fun h => (execT_mono ops initState h).2.1⟩

/-- Counterexample to C6 as stated: an addNewWindow followed by a
resetToHome assigns the id sequence [1, 1] - the second assignment is not
greater than the first, and id 1 is reused. -/
theorem claim_C6_counterexample :
    (execT initState [Op.add 0, Op.reset 0]).2 = [1, 1] ∧
      ¬ List.Pairwise (· < ·) (execT initState [Op.add 0, Op.reset 0]).2 ∧
      ¬ (execT initState [Op.add 0, Op.reset 0]).2.Nodup := by
  have h : (execT initState [Op.add 0, Op.reset 0]).2 = [1, 1] := rfl
  rw [h]
  exact ⟨rfl, by simp, by simp⟩

/-- Witness for C6 (amended): two adds from the empty state assign [1, 2],
positive and strictly increasing. -/
theorem claim_C6_witness :
    (execT initState [Op.add 0, Op.add 0]).2 = [1, 2] ∧
      List.Pairwise (· < ·) (execT initState [Op.add 0, Op.add 0]).2 ∧
      ∀ x ∈ (execT initState [Op.add 0, Op.add 0]).2, 0 < x :=
  ⟨rfl, (claim_C6_amended [Op.add 0, Op.add 0]).2 (by decide),
    (claim_C6_amended [Op.add 0, Op.add 0]).1⟩

lemma better_irrefl (a : LeafData) : ¬ better a a := by
  simp [better]

lemma better_asymm {a b : LeafData} (h : better a b) : ¬ better b a := by
  intro h2
  rcases h with ⟨he, hlt⟩ | hlt <;> rcases h2 with ⟨he2, hlt2⟩ | hlt2
  · omega
  · rw [he] at hlt2
    exact lt_irrefl _ hlt2
  · rw [he2] at hlt
    exact lt_irrefl _ hlt
  · exact lt_irrefl _ (hlt.trans hlt2)

lemma better_trans {a b c : LeafData} (h1 : better a b) (h2 : better b c) : better a c := by
  rcases h1 with ⟨he1, hl1⟩ | hl1 <;> rcases h2 with ⟨he2, hl2⟩ | hl2
  · exact Or.inl ⟨he1.trans he2, by omega⟩
  · exact Or.inr (by rw [he1]; exact hl2)
  · exact Or.inr (by rw [← he2]; exact hl1)
  · exact Or.inr (hl2.trans hl1)

lemma better_cross {x y z : LeafData} (hny : ¬ better y x) (hz : better z x) :
    better z y := by
  have hyx : area y ≤ area x := not_lt.mp (fun hl => hny (Or.inr hl))
  rcases hz with ⟨he, hlt⟩ | hlt
  · rcases lt_or_eq_of_le hyx with h | h
    · exact Or.inr (by rw [he]; exact h)
    · have hsc : x.splitCount ≤ y.splitCount := by
        by_contra hc
        exact hny (Or.inl ⟨h, by omega⟩)
      exact Or.inl ⟨he.trans h.symm, by omega⟩
  · exact Or.inr (lt_of_le_of_lt hyx hlt)

lemma pick_eq (a c : LeafData) : pick a c = if better c a then c else a := by
  by_cases h1 : area c = area a
  · by_cases h2 : c.splitCount < a.splitCount
    · simp [pick, better, h1, h2]
    · simp [pick, better, h1, h2, lt_irrefl]
  · by_cases h3 : area a < area c
    · simp [pick, better, h1, h3]
    · simp [pick, better, h1, h3]

/-- The left fold with pick returns the earliest leaf that no other leaf
strictly beats: it decomposes the scanned list around the result, with the
result strictly better than everything before it and beaten by nothing. -/
lemma foldl_pick_spec (l : List LeafData) :
    ∀ (acc : LeafData) (pre post : List LeafData),
      (∀ y ∈ pre, better acc y) →
      (∀ y ∈ pre ++ acc :: post, ¬ better y acc) →
      ∃ pre' post',
        pre' ++ (List.foldl pick acc l) :: post' = pre ++ acc :: (post ++ l) ∧
          (∀ y ∈ pre', better (List.foldl pick acc l) y) ∧
          (∀ y ∈ pre ++ acc :: (post ++ l), ¬ better y (List.foldl pick acc l)) := by
  induction l with
  | nil =>
    intro acc pre post hpre hnone
    exact ⟨pre, post, by simp, hpre, by simpa using hnone⟩
  | cons c l ih =>
    intro acc pre post hpre hnone
    by_cases hb : better c acc
    · have hacc : pick acc c = c := by rw [pick_eq, if_pos hb]
      have hpre' : ∀ y ∈ pre ++ acc :: post, better c y := by
        intro y hy
        rcases List.mem_append.mp hy with hy | hy
        · exact better_trans hb (hpre y hy)
        · rcases List.mem_cons.mp hy with rfl | hy
          · exact hb
          · exact better_cross (hnone y (by simp [hy])) hb
      have hnone' : ∀ y ∈ (pre ++ acc :: post) ++ c :: ([] : List LeafData), ¬ better y c := by
        intro y hy
        rcases List.mem_append.mp hy with hy | hy
        · exact better_asymm (hpre' y hy)
        · rcases List.mem_cons.mp hy with h | hy
          · cases h
            exact better_irrefl c
          · simp at hy
      obtain ⟨pre', post', heq, h1, h2⟩ := ih c (pre ++ acc :: post) [] hpre' hnone'
      rw [List.foldl_cons, hacc]
      refine ⟨pre', post', ?_, h1, ?_⟩
      · rw [heq]
        simp
      · intro y hy
        apply h2
        simp only [List.mem_append, List.mem_cons, List.not_mem_nil, or_false] at hy ⊢
        tauto
    · have hacc : pick acc c = acc := by rw [pick_eq, if_neg hb]
      have hnone' : ∀ y ∈ pre ++ acc :: (post ++ [c]), ¬ better y acc := by
        intro y hy
        have hy' : y ∈ pre ++ acc :: post ∨ y = c := by
          simp only [List.mem_append, List.mem_cons, List.mem_singleton] at hy ⊢
          tauto
        rcases hy' with hy' | rfl
        · exact hnone y hy'
        · exact hb
      obtain ⟨pre', post', heq, h1, h2⟩ := ih acc pre (post ++ [c]) hpre hnone'
      rw [List.foldl_cons, hacc]
      refine ⟨pre', post', ?_, h1, ?_⟩
      · rw [heq]
        simp
      · intro y hy
        apply h2
        simp only [List.mem_append, List.mem_cons, List.mem_singleton] at hy ⊢
        tauto

lemma foldl_min_le_init (l : List Nat) : ∀ a : Nat, List.foldl Nat.min a l ≤ a := by
  induction l with
  | nil => intro a; simp
  | cons b l ih =>
    intro a
    calc List.foldl Nat.min (Nat.min a b) l ≤ Nat.min a b := ih _
      _ ≤ a := Nat.min_le_left _ _

lemma foldl_min_le_mem (l : List Nat) : ∀ (a x : Nat), x ∈ l → List.foldl Nat.min a l ≤ x := by
  induction l with
  | nil => intro a x hx; simp at hx
  | cons b l ih =>
    intro a x hx
    rcases List.mem_cons.mp hx with rfl | hx
    · calc List.foldl Nat.min (Nat.min a x) l ≤ Nat.min a x := foldl_min_le_init _ _
        _ ≤ x := Nat.min_le_right _ _
    · exact ih _ x hx

lemma foldl_min_attained (l : List Nat) :
    ∀ a : Nat, List.foldl Nat.min a l = a ∨ List.foldl Nat.min a l ∈ l := by
  induction l with
  | nil => intro a; simp
  | cons b l ih =>
    intro a
    rcases ih (Nat.min a b) with h | h
    · rcases Nat.le_total a b with hab | hab
      · have hmin : Nat.min a b = a := by
          simp [Nat.min_def, hab]
        rw [List.foldl_cons, h, hmin]
        exact Or.inl rfl
      · have hmin : Nat.min a b = b := by
          simp only [Nat.min_def]
          split_ifs with hle
          · omega
          · rfl
        rw [List.foldl_cons, h, hmin]
        exact Or.inr (List.mem_cons_self _ _)
    · exact Or.inr (List.mem_cons_of_mem _ h)

lemma getD_mem_or {α : Type} (l : List α) : ∀ (n : Nat) (d : α),
    l.getD n d ∈ l ∨ l.getD n d = d := by
  induction l with
  | nil => intro n d; exact Or.inr rfl
  | cons a l ih =>
    intro n d
    cases n with
    | zero => exact Or.inl (List.mem_cons_self _ _)
    | succ n =>
      rcases ih n d with h | h
      · exact Or.inl (List.mem_cons_of_mem _ (by simpa using h))
      · exact Or.inr (by simpa using h)

/-- C7: the split-target selector returns none on an empty registry; the
unique leaf when exactly one exists; with 2-3 leaves the earliest leaf of
maximum cachedRect area with ties broken by smaller splitCount (the
decomposition shows the result beats everything inserted before it and is
beaten by nothing); and with 4 or more leaves, whatever the random draw,
a leaf of minimum splitCount among all leaves. -/
theorem claim_C7 :
    (∀ (s : State) (rand : Nat), s.registry = [] →
        selectFromLeaves (leavesOf s) rand = none) ∧
      (∀ (leaves : List LeafData) (rand : Nat) (l : LeafData), leaves = [l] →
        selectFromLeaves leaves rand = some l) ∧
      (∀ (leaves : List LeafData) (rand : Nat), 2 ≤ leaves.length → leaves.length ≤ 3 →
        ∃ (d : LeafData) (pre post : List LeafData),
          selectFromLeaves leaves rand = some d ∧
            pre ++ d :: post = leaves ∧
            (∀ y ∈ leaves, ¬ better y d) ∧
            (∀ y ∈ pre, better d y)) ∧
      (∀ (leaves : List LeafData) (rand : Nat), 4 ≤ leaves.length →
        ∃ d : LeafData, selectFromLeaves leaves rand = some d ∧ d ∈ leaves ∧
          ∀ y ∈ leaves, d.splitCount ≤ y.splitCount) := by
  refine ⟨?_, ?_, ?_, ?_⟩
  · intro s rand h
    simp [leavesOf, h, selectFromLeaves]
  · intro leaves rand l h
    rw [h]
    rfl
  · intro leaves rand h2 h3
    rcases leaves with _ | ⟨hd, _ | ⟨t1, tl⟩⟩
    · simp at h2
    · simp at h2
    · have hlen : ¬ 4 ≤ (hd :: t1 :: tl).length := by
        simp only [List.length_cons] at h3 ⊢
        omega
      have hsel : selectFromLeaves (hd :: t1 :: tl) rand
          = some (List.foldl pick hd (t1 :: tl)) := by
        simp only [selectFromLeaves, if_neg hlen]
      have hinit : ∀ y ∈ ([] : List LeafData) ++ hd :: ([] : List LeafData), ¬ better y hd := by
        intro y hy
        simp only [List.nil_append, List.mem_cons, List.not_mem_nil, or_false] at hy
        cases hy
        exact better_irrefl hd
      obtain ⟨pre', post', heq, h1, hmax⟩ :=
        foldl_pick_spec (t1 :: tl) hd [] [] (by simp) hinit
      refine ⟨List.foldl pick hd (t1 :: tl), pre', post', hsel, by simpa using heq, ?_, h1⟩
      intro y hy
      apply hmax
      simpa using hy
  · intro leaves rand h4
    rcases leaves with _ | ⟨hd, _ | ⟨t1, tl⟩⟩
    · simp at h4
    · simp at h4
    · have hex : ∃ w ∈ hd :: t1 :: tl,
          w.splitCount
            = List.foldl Nat.min hd.splitCount ((t1 :: tl).map (fun x => x.splitCount)) := by
        rcases foldl_min_attained ((t1 :: tl).map (fun x => x.splitCount)) hd.splitCount
          with h | h
        · exact ⟨hd, by simp, h.symm⟩
        · rcases List.mem_map.mp h with ⟨w, hw, hws⟩
          exact ⟨w, List.mem_cons_of_mem _ hw, hws⟩
      have hmle : ∀ y ∈ hd :: t1 :: tl,
          List.foldl Nat.min hd.splitCount ((t1 :: tl).map (fun x => x.splitCount))
            ≤ y.splitCount := by
        intro y hy
        rcases List.mem_cons.mp hy with h | hy'
        · cases h
          exact foldl_min_le_init _ _
        · exact foldl_min_le_mem _ _ _ (List.mem_map_of_mem _ hy')
      obtain ⟨w, hwmem, hwsc⟩ := hex
      have hwfil : w ∈ (hd :: t1 :: tl).filter
          (fun x => x.splitCount
            == List.foldl Nat.min hd.splitCount ((t1 :: tl).map (fun x => x.splitCount))) := by
        rw [List.mem_filter]
        exact ⟨hwmem, by simp [hwsc]⟩
      rcases hfil : (hd :: t1 :: tl).filter
          (fun x => x.splitCount
            == List.foldl Nat.min hd.splitCount ((t1 :: tl).map (fun x => x.splitCount)))
        with _ | ⟨c, cs⟩
      · rw [hfil] at hwfil
        simp at hwfil
      · have hsel : selectFromLeaves (hd :: t1 :: tl) rand
            = some ((c :: cs).getD (rand % (c :: cs).length) c) := by

          simp only [selectFromLeaves, if_pos h4, hfil]
        have hdmem : (c :: cs).getD (rand % (c :: cs).length) c ∈ c :: cs := by
          rcases getD_mem_or (c :: cs) (rand % (c :: cs).length) c with h | h
          · exact h
          · rw [h]
            exact List.mem_cons_self _ _
        have hdfil : (c :: cs).getD (rand % (c :: cs).length) c ∈ (hd :: t1 :: tl).filter
            (fun x => x.splitCount
              == List.foldl Nat.min hd.splitCount
                  ((t1 :: tl).map (fun x => x.splitCount))) := by
          rw [hfil]
          exact hdmem
        have hprop := List.mem_filter.mp hdfil
        refine ⟨(c :: cs).getD (rand % (c :: cs).length) c, hsel, hprop.1, ?_⟩
        intro y hy
        have heq : ((c :: cs).getD (rand % (c :: cs).length) c).splitCount
            = List.foldl Nat.min hd.splitCount ((t1 :: tl).map (fun x => x.splitCount)) := by
          have := hprop.2
          simpa using this
        rw [heq]
        exact hmle y hy

/-- Witness for C7: the empty registry yields none; a singleton yields its
leaf; a pair and a quadruple of full-rect leaves yield a selection with the
asserted maximality properties. -/
theorem claim_C7_witness :
    selectFromLeaves (leavesOf initState) 0 = none ∧
      (selectFromLeaves [{ id := 1, splitCount := 0, closing := false, rect := fullRect }] 0
        = some { id := 1, splitCount := 0, closing := false, rect := fullRect }) ∧
      (∃ (d : LeafData) (pre post : List LeafData),
        selectFromLeaves
            [{ id := 1, splitCount := 0, closing := false, rect := fullRect },
              { id := 2, splitCount := 0, closing := false, rect := fullRect }] 0 = some d ∧
          pre ++ d :: post
              = [{ id := 1, splitCount := 0, closing := false, rect := fullRect },
                  { id := 2, splitCount := 0, closing := false, rect := fullRect }] ∧
          (∀ y ∈ [{ id := 1, splitCount := 0, closing := false, rect := fullRect },
              { id := 2, splitCount := 0, closing := false, rect := fullRect }],
            ¬ better y d) ∧
          (∀ y ∈ pre, better d y)) ∧
      (∃ d : LeafData,
        selectFromLeaves
            [{ id := 1, splitCount := 0, closing := false, rect := fullRect },
              { id := 2, splitCount := 0, closing := false, rect := fullRect },
              { id := 3, splitCount := 0, closing := false, rect := fullRect },
              { id := 4, splitCount := 0, closing := false, rect := fullRect }] 0 = some d ∧
          d ∈ ([{ id := 1, splitCount := 0, closing := false, rect := fullRect },
              { id := 2, splitCount := 0, closing := false, rect := fullRect },
              { id := 3, splitCount := 0, closing := false, rect := fullRect },
              { id := 4, splitCount := 0, closing := false, rect := fullRect }]
            : List LeafData) ∧
          ∀ y ∈ ([{ id := 1, splitCount := 0, closing := false, rect := fullRect },
              { id := 2, splitCount := 0, closing := false, rect := fullRect },
              { id := 3, splitCount := 0, closing := false, rect := fullRect },
              { id := 4, splitCount := 0, closing := false, rect := fullRect }]
            : List LeafData),
            d.splitCount ≤ y.splitCount) :=
  ⟨claim_C7.1 initState 0 rfl, claim_C7.2.1 _ 0 _ rfl,
    claim_C7.2.2.1 _ 0 (by decide) (by decide), claim_C7.2.2.2 _ 0 (by decide)⟩

lemma IsSubtree_refl (t : WNode) : IsSubtree t t := by
  cases t with
  | leaf d => rfl
  | split o r a b => exact Or.inl rfl

lemma isLeafId_eq {t : WNode} {i : Nat} (h : isLeafId t i = true) :
    ∃ d : LeafData, t = .leaf d ∧ d.id = i := by
  cases t with
  | leaf d =>
    refine ⟨d, rfl, ?_⟩
    simpa [isLeafId] using h
  | split o r a b => simp [isLeafId] at h

lemma siblingOf_mem (t : WNode) (i : Nat) :
    ∀ s : WNode, siblingOf t i = some s → i ∈ leafIds t := by
  induction t with
  | leaf d => intro s h; simp [siblingOf] at h
  | split o r a b iha ihb =>
    intro s h
    simp only [siblingOf] at h
    split_ifs at h with ha hb
    · obtain ⟨d, rfl, hid⟩ := isLeafId_eq ha
      simp [leafIds, hid]
    · obtain ⟨d, rfl, hid⟩ := isLeafId_eq hb
      simp [leafIds, hid]
    · rcases hsa : siblingOf a i with _ | s'
      · rw [hsa] at h
        simp only [leafIds, List.mem_append]
        exact Or.inr (ihb s h)
      · simp only [leafIds, List.mem_append]
        exact Or.inl (iha s' hsa)

lemma removeLeafT_not_mem : ∀ {t : WNode} {i : Nat}, i ∉ leafIds t →
    removeLeafT t i = some t := by
  intro t
  induction t with
  | leaf d =>
    intro i h
    have hne : ¬ d.id = i := by
      simp only [leafIds, List.mem_singleton] at h
      exact fun e => h e.symm
    simp [removeLeafT, hne]
  | split o r a b iha ihb =>
    intro i h
    have hna : i ∉ leafIds a := fun hm => h (by simp [leafIds, hm])
    have hnb : i ∉ leafIds b := fun hm => h (by simp [leafIds, hm])
    simp only [removeLeafT, iha hna, ihb hnb]

lemma removeLeafT_split_isSome (o : Orientation) (r : ℚ) (a b : WNode) (i : Nat) :
    ∃ x, removeLeafT (.split o r a b) i = some x := by
  simp only [removeLeafT]
  rcases removeLeafT a i with _ | a' <;> rcases removeLeafT b i with _ | b' <;>
    exact ⟨_, rfl⟩

/-- C9: closing a leaf that has a parent (a non-root leaf) produces a tree
in which the closed leaf's sibling subtree occurs syntactically unchanged -
all its descendants, orientations, ratios and relative arrangement intact;
only its attachment point (grandparent slot or root) changes. -/
theorem claim_C9 (t : WNode) (i : Nat) (s : WNode) (hnd : (leafIds t).Nodup)
    (hsib : siblingOf t i = some s) :
    ∃ t', removeLeafT t i = some t' ∧ IsSubtree s t' := by
  induction t with
  | leaf d => simp [siblingOf] at hsib
  | split o r a b iha ihb =>
    have hnda : (leafIds a).Nodup := ((List.nodup_append.mp hnd)).1
    have hndb : (leafIds b).Nodup := ((List.nodup_append.mp hnd)).2.1
    have hdisj : ∀ x, x ∈ leafIds a → x ∈ leafIds b → False := by
      intro x hx1 hx2
      exact (List.nodup_append.mp hnd).2.2 hx1 hx2
    simp only [siblingOf] at hsib
    split_ifs at hsib with ha hb
    · obtain ⟨d, rfl, hid⟩ := isLeafId_eq ha
      cases hsib
      refine ⟨s, ?_, IsSubtree_refl s⟩
      simp [removeLeafT, hid]
    · obtain ⟨d, rfl, hid⟩ := isLeafId_eq hb
      cases hsib
      have hnmem : i ∉ leafIds s := by
        intro hmem
        exact hdisj i hmem (by simp [leafIds, hid])
      refine ⟨s, ?_, IsSubtree_refl s⟩
      simp [removeLeafT, removeLeafT_not_mem hnmem, hid]
    · rcases hsa : siblingOf a i with _ | s'
      · rw [hsa] at hsib
        have hmemb : i ∈ leafIds b := siblingOf_mem b i s hsib
        have hnmema : i ∉ leafIds a := fun hm => hdisj i hm hmemb
        obtain ⟨b', hb', hsubb⟩ := ihb hndb hsib
        refine ⟨.split o r a b', ?_, Or.inr (Or.inr hsubb)⟩
        simp only [removeLeafT, removeLeafT_not_mem hnmema, hb']
      · rw [hsa] at hsib
        cases hsib
        have hmema : i ∈ leafIds a := siblingOf_mem a i s hsa
        have hnmemb : i ∉ leafIds b := fun hm => hdisj i hmema hm
        obtain ⟨a', ha', hsuba⟩ := iha hnda hsa
        refine ⟨.split o r a' b, ?_, Or.inr (Or.inl hsuba)⟩
        simp only [removeLeafT, removeLeafT_not_mem hnmemb, ha']

/-- Witness for C9: in the tree Split(v, leaf 1, Split(h, leaf 2, leaf 3)),
closing leaf 2 promotes leaf 3 in place of its parent, leaf 3 surviving
unchanged as a subtree of the result. -/
theorem claim_C9_witness :
    ∃ t', removeLeafT
          (.split .vertical (1/2)
            (.leaf { id := 1, splitCount := 1, closing := false, rect := fullRect })
            (.split .horizontal (1/2)
              (.leaf { id := 2, splitCount := 2, closing := false, rect := fullRect })
              (.leaf { id := 3, splitCount := 2, closing := false, rect := fullRect }))) 2
        = some t' ∧
      IsSubtree (.leaf { id := 3, splitCount := 2, closing := false, rect := fullRect }) t' :=
  claim_C9 _ 2 _ (by decide) (by decide)

lemma leafIds_applyLayout (t : WNode) :
    ∀ (r : Rect) (gx gy : ℚ), leafIds (applyLayout t r gx gy) = leafIds t := by
  induction t with
  | leaf d => intro r gx gy; rfl
  | split o q a b iha ihb =>
    intro r gx gy
    cases o <;> simp only [applyLayout, leafIds, iha, ihb]

lemma leafIds_setRatio (t : WNode) :
    ∀ (p : List Bool) (q : ℚ), leafIds (setRatioAt t p q) = leafIds t := by
  induction t with
  | leaf d => intro p q; rfl
  | split o r a b iha ihb =>
    intro p q
    match p with
    | [] => rfl
    | false :: p' => simp only [setRatioAt, leafIds, iha]
    | true :: p' => simp only [setRatioAt, leafIds, ihb]

lemma leafIds_ne_nil (t : WNode) : leafIds t ≠ [] := by
  cases t with
  | leaf d => simp [leafIds]
  | split o r a b =>
    simp only [leafIds]
    intro h
    exact leafIds_ne_nil a (List.append_eq_nil.mp h).1

lemma leafOfId_id (t : WNode) (i : Nat) :
    ∀ d : LeafData, leafOfId t i = some d → d.id = i ∧ i ∈ leafIds t := by
  induction t with
  | leaf e =>
    intro d h
    simp only [leafOfId] at h
    split_ifs at h with hid
    cases h
    exact ⟨hid, by simp [leafIds, hid]⟩
  | split o r a b iha ihb =>
    intro d h
    simp only [leafOfId] at h
    rcases ha : leafOfId a i with _ | d'
    · rw [ha] at h
      obtain ⟨h1, h2⟩ := ihb d h
      exact ⟨h1, by simp [leafIds, h2]⟩
    · rw [ha] at h
      cases h
      obtain ⟨h1, h2⟩ := iha d ha
      exact ⟨h1, by simp [leafIds, h2]⟩

lemma leafOfId_isSome (t : WNode) (i : Nat) :
    i ∈ leafIds t → ∃ d : LeafData, leafOfId t i = some d := by
  induction t with
  | leaf e =>
    intro h
    simp only [leafIds, List.mem_singleton] at h
    exact ⟨e, by simp [leafOfId, h.symm]⟩
  | split o r a b iha ihb =>
    intro h
    simp only [leafIds, List.mem_append] at h
    rcases ha : leafOfId a i with _ | d'
    · rcases h with h | h
      · obtain ⟨d, hd⟩ := iha h
        rw [hd] at ha
        cases ha
      · obtain ⟨d, hd⟩ := ihb h
        exact ⟨d, by simp only [leafOfId, ha, hd]⟩
    · exact ⟨d', by simp only [leafOfId, ha]⟩

lemma splitLeaf_not_mem (t : WNode) (i : Nat) (nd : LeafData) (o : Orientation) :
    i ∉ leafIds t → splitLeafInTree t i nd o = t := by
  induction t with
  | leaf d =>
    intro h
    have hne : ¬ d.id = i := by
      simp only [leafIds, List.mem_singleton] at h
      exact fun e => h e.symm
    simp [splitLeafInTree, hne]
  | split so r a b iha ihb =>
    intro h
    have hna : i ∉ leafIds a := fun hm => h (by simp [leafIds, hm])
    have hnb : i ∉ leafIds b := fun hm => h (by simp [leafIds, hm])
    simp only [splitLeafInTree, iha hna, ihb hnb]

lemma splitLeaf_perm (t : WNode) (i : Nat) (nd : LeafData) (o : Orientation) :
    (leafIds t).Nodup → i ∈ leafIds t →
    (leafIds (splitLeafInTree t i nd o)).Perm (nd.id :: leafIds t) := by
  induction t with
  | leaf d =>
    intro _ hmem
    have hid : d.id = i := by
      simp only [leafIds, List.mem_singleton] at hmem
      exact hmem.symm
    simp only [splitLeafInTree, if_pos hid, leafIds]
    exact List.Perm.swap _ _ _
  | split so r a b iha ihb =>
    intro hnd hmem
    have hnda : (leafIds a).Nodup := (List.nodup_append.mp hnd).1
    have hndb : (leafIds b).Nodup := (List.nodup_append.mp hnd).2.1
    have hdisj := (List.nodup_append.mp hnd).2.2
    simp only [leafIds, List.mem_append] at hmem
    rcases hmem with hmem | hmem
    · have hnb : i ∉ leafIds b := fun hm => hdisj hmem hm
      rw [splitLeafInTree]
      simp only [leafIds, splitLeaf_not_mem b i nd o hnb]
      have h1 : (leafIds (splitLeafInTree a i nd o) ++ leafIds b).Perm
          ((nd.id :: leafIds a) ++ leafIds b) := (iha hnda hmem).append_right _
      have h2 : (nd.id :: leafIds a) ++ leafIds b = nd.id :: (leafIds a ++ leafIds b) := by
        simp
      exact h2 ▸ h1
    · have hna : i ∉ leafIds a := fun hm => hdisj hm hmem
      rw [splitLeafInTree]
      simp only [leafIds, splitLeaf_not_mem a i nd o hna]
      have h1 : (leafIds a ++ leafIds (splitLeafInTree b i nd o)).Perm
          (leafIds a ++ (nd.id :: leafIds b)) := (ihb hndb hmem).append_left _
      exact h1.trans List.perm_middle

/-- Removing a present leaf either consumes the whole tree (when it was the
only leaf) or yields a tree whose leaf ids are the old ones minus the
removed id. -/
lemma remove_cases (t : WNode) (i : Nat) :
    (leafIds t).Nodup → i ∈ leafIds t →
    (removeLeafT t i = none ∧ leafIds t = [i]) ∨
      (∃ t', removeLeafT t i = some t' ∧ (leafIds t).Perm (i :: leafIds t')) := by
  induction t with
  | leaf d =>
    intro _ hmem
    have hid : d.id = i := by
      simp only [leafIds, List.mem_singleton] at hmem
      exact hmem.symm
    exact Or.inl ⟨by simp [removeLeafT, hid], by simp [leafIds, hid]⟩
  | split o r a b iha ihb =>
    intro hnd hmem
    have hnda : (leafIds a).Nodup := (List.nodup_append.mp hnd).1
    have hndb : (leafIds b).Nodup := (List.nodup_append.mp hnd).2.1
    have hdisj := (List.nodup_append.mp hnd).2.2
    simp only [leafIds, List.mem_append] at hmem
    rcases hmem with hmem | hmem
    · have hnb : i ∉ leafIds b := fun hm => hdisj hmem hm
      rcases iha hnda hmem with ⟨hnone, hsingle⟩ | ⟨a', ha', hperm⟩
      · refine Or.inr ⟨b, ?_, ?_⟩
        · simp only [removeLeafT, hnone]
        · simp only [leafIds, hsingle, List.singleton_append]
          exact List.Perm.refl _
      · refine Or.inr ⟨.split o r a' b, ?_, ?_⟩
        · simp only [removeLeafT, ha', removeLeafT_not_mem hnb]
        · simp only [leafIds]
          have h1 : (leafIds a ++ leafIds b).Perm ((i :: leafIds a') ++ leafIds b) :=
            hperm.append_right _
          exact h1.trans (by simp [List.cons_append])
    · have hna : i ∉ leafIds a := fun hm => hdisj hm hmem
      rcases ihb hndb hmem with ⟨hnone, hsingle⟩ | ⟨b', hb', hperm⟩
      · refine Or.inr ⟨a, ?_, ?_⟩
        · simp only [removeLeafT, hnone, removeLeafT_not_mem hna]
        · simp only [leafIds, hsingle]
          exact List.perm_append_singleton _ _
      · refine Or.inr ⟨.split o r a b', ?_, ?_⟩
        · simp only [removeLeafT, hb', removeLeafT_not_mem hna]
        · simp only [leafIds]
          have h1 : (leafIds a ++ leafIds b).Perm (leafIds a ++ (i :: leafIds b')) :=
            hperm.append_left _
          exact h1.trans List.perm_middle

lemma pick_cases (a c : LeafData) : pick a c = a ∨ pick a c = c := by
  rw [pick_eq]
  split_ifs
  · exact Or.inr rfl
  · exact Or.inl rfl

lemma foldl_pick_mem (l : List LeafData) :
    ∀ acc : LeafData, List.foldl pick acc l = acc ∨ List.foldl pick acc l ∈ l := by
  induction l with
  | nil => intro acc; exact Or.inl rfl
  | cons c l ih =>
    intro acc
    rw [List.foldl_cons]
    rcases ih (pick acc c) with h | h
    · rcases pick_cases acc c with hp | hp
      · rw [h, hp]
        exact Or.inl rfl
      · rw [h, hp]
        exact Or.inr (List.mem_cons_self _ _)
    · exact Or.inr (List.mem_cons_of_mem _ h)

lemma filter_minSC_mem (hd : LeafData) (tl : List LeafData) :
    ∃ c, c ∈ (hd :: tl).filter
      (fun x => x.splitCount
        == List.foldl Nat.min hd.splitCount (tl.map (fun x => x.splitCount))) := by
  rcases foldl_min_attained (tl.map (fun x => x.splitCount)) hd.splitCount with h | h
  · exact ⟨hd, List.mem_filter.mpr ⟨List.mem_cons_self _ _, by simp [h]⟩⟩
  · rcases List.mem_map.mp h with ⟨w, hw, hws⟩
    exact ⟨w, List.mem_filter.mpr ⟨List.mem_cons_of_mem _ hw, by simp [hws]⟩⟩

lemma select_mem (leaves : List LeafData) (rand : Nat) (d : LeafData) :
    selectFromLeaves leaves rand = some d → d ∈ leaves := by
  rcases leaves with _ | ⟨hd, _ | ⟨t1, tl⟩⟩
  · intro h
    simp [selectFromLeaves] at h
  · intro h
    simp only [selectFromLeaves, Option.some.injEq] at h
    simp [← h]
  · intro h
    by_cases h4 : 4 ≤ (hd :: t1 :: tl).length
    · rcases hfil : (hd :: t1 :: tl).filter
          (fun x => x.splitCount
            == List.foldl Nat.min hd.splitCount ((t1 :: tl).map (fun x => x.splitCount)))
        with _ | ⟨c, cs⟩
      · obtain ⟨c, hc⟩ := filter_minSC_mem hd (t1 :: tl)
        rw [hfil] at hc
        simp at hc
      · simp only [selectFromLeaves, if_pos h4, hfil, Option.some.injEq] at h
        have hdmem : d ∈ c :: cs := by
          rcases getD_mem_or (c :: cs) (rand % (c :: cs).length) c with hm | hm
          · rw [← h]
            exact hm
          · rw [← h, hm]
            exact List.mem_cons_self _ _
        have : d ∈ (hd :: t1 :: tl).filter
            (fun x => x.splitCount
              == List.foldl Nat.min hd.splitCount ((t1 :: tl).map (fun x => x.splitCount))) := by
          rw [hfil]
          exact hdmem
        exact (List.mem_filter.mp this).1
    · simp only [selectFromLeaves, if_neg h4, Option.some.injEq] at h
      rcases foldl_pick_mem (t1 :: tl) hd with hm | hm
      · rw [← h, hm]
        exact List.mem_cons_self _ _
      · rw [← h]
        exact List.mem_cons_of_mem _ hm

lemma select_isSome (leaves : List LeafData) (rand : Nat) :
    leaves ≠ [] → ∃ d, selectFromLeaves leaves rand = some d := by
  rcases leaves with _ | ⟨hd, _ | ⟨t1, tl⟩⟩
  · intro h
    exact absurd rfl h
  · intro _
    exact ⟨hd, rfl⟩
  · intro _
    by_cases h4 : 4 ≤ (hd :: t1 :: tl).length
    · rcases hfil : (hd :: t1 :: tl).filter
          (fun x => x.splitCount
            == List.foldl Nat.min hd.splitCount ((t1 :: tl).map (fun x => x.splitCount)))
        with _ | ⟨c, cs⟩
      · obtain ⟨c, hc⟩ := filter_minSC_mem hd (t1 :: tl)
        rw [hfil] at hc
        simp at hc
      · exact ⟨(c :: cs).getD (rand % (c :: cs).length) c,
          by simp only [selectFromLeaves, if_pos h4, hfil]⟩
    · exact ⟨List.foldl pick hd (t1 :: tl), by simp only [selectFromLeaves, if_neg h4]⟩

/-- The registry-tree invariant: the registry keys are a permutation of the
tree's leaf ids (so the key set equals the leaf set, both empty on a null
root), the keys are duplicate-free, and every key is at most the counter. -/
def Inv (s : State) : Prop :=
  s.registry.Perm (leafIdsO s.root) ∧ s.registry.Nodup ∧ ∀ i ∈ s.registry, i ≤ s.counter

lemma leafIdsO_updateLayout (s : State) :
    leafIdsO (updateLayout s).root = leafIdsO s.root := by
  rcases hroot : s.root with _ | r <;>
    simp [updateLayout, hroot, leafIdsO, leafIds_applyLayout]

lemma inv_updateLayout (s : State) (h : Inv s) : Inv (updateLayout s) := by
  obtain ⟨hp, hn, hb⟩ := h
  refine ⟨?_, ?_, ?_⟩
  · rw [updateLayout_registry, leafIdsO_updateLayout]
    exact hp
  · rw [updateLayout_registry]
    exact hn
  · intro i hi
    rw [updateLayout_registry] at hi
    rw [updateLayout_counter]
    exact hb i hi

lemma inv_add (s : State) (target : Option Nat) (orient : Option Orientation) (rand : Nat)
    (h : Inv s) : Inv (addNewWindowTargeted s target orient rand).1 := by
  have hfresh : s.counter + 1 ∉ s.registry := by
    intro hm
    have := h.2.2 _ hm
    omega
  obtain ⟨hp, hn, hb⟩ := h
  unfold addNewWindowTargeted
  apply inv_updateLayout
  rcases hroot : s.root with _ | r
  · have hreg : s.registry = [] := by
      rw [hroot] at hp
      exact hp.eq_nil
    simp only [hroot]
    refine ⟨?_, ?_, ?_⟩
    · simp only [hreg, List.nil_append, leafIdsO, leafIds]
      exact List.Perm.refl _
    · simp [hreg]
    · intro i hi
      simp only [hreg, List.nil_append, List.mem_singleton] at hi
      show i ≤ s.counter + 1
      omega
  · rw [hroot] at hp
    simp only [leafIdsO] at hp
    have hndl : (leafIds r).Nodup := hp.nodup_iff.mp hn
    have hregne : s.registry ≠ [] := by
      intro he
      rw [he] at hp
      exact leafIds_ne_nil r (List.Perm.eq_nil hp.symm)
    have hleaves : leavesOf s ≠ [] := by
      rcases hr : s.registry with _ | ⟨i0, rest⟩
      · exact absurd hr hregne
      · have hi0 : i0 ∈ leafIds r := hp.mem_iff.mp (by rw [hr]; exact List.mem_cons_self _ _)
        obtain ⟨d0, hd0⟩ := leafOfId_isSome r i0 hi0
        simp only [leavesOf, hr, hroot, leafOfIdO, List.filterMap_cons, hd0]
        simp
    simp only [hroot]
    rcases htgt : (match target with
      | some t => if t ∈ s.registry then leafOfId r t else selectFromLeaves (leavesOf s) rand
      | none => selectFromLeaves (leavesOf s) rand) with _ | d
    · exfalso
      rcases target with _ | tg
      · have htgt' : selectFromLeaves (leavesOf s) rand = none := htgt
        obtain ⟨d, hd⟩ := select_isSome (leavesOf s) rand hleaves
        rw [htgt'] at hd
        cases hd
      · have htgt' : (if tg ∈ s.registry then leafOfId r tg
            else selectFromLeaves (leavesOf s) rand) = none := htgt
        by_cases hmem : tg ∈ s.registry
        · rw [if_pos hmem] at htgt'
          have htg : tg ∈ leafIds r := hp.mem_iff.mp hmem
          obtain ⟨d, hd⟩ := leafOfId_isSome r tg htg
          rw [htgt'] at hd
          cases hd
        · rw [if_neg hmem] at htgt'
          obtain ⟨d, hd⟩ := select_isSome (leavesOf s) rand hleaves
          rw [htgt'] at hd
          cases hd
    · have hdid : d.id ∈ leafIds r := by
        have hsel : ∀ hx : selectFromLeaves (leavesOf s) rand = some d, d.id ∈ leafIds r := by
          intro hx
          have hd := select_mem _ rand d hx
          obtain ⟨i0, hi0, hlook⟩ := List.mem_filterMap.mp hd
          rw [hroot] at hlook
          obtain ⟨hid, hmeml⟩ := leafOfId_id r i0 d hlook
          rw [hid]
          exact hmeml
        rcases target with _ | tg
        · exact hsel htgt
        · have htgt' : (if tg ∈ s.registry then leafOfId r tg
              else selectFromLeaves (leavesOf s) rand) = some d := htgt
          by_cases hmem : tg ∈ s.registry
          · rw [if_pos hmem] at htgt'
            obtain ⟨hid, hmeml⟩ := leafOfId_id r tg d htgt'
            rw [hid]
            exact hmeml
          · rw [if_neg hmem] at htgt'
            exact hsel htgt'
      simp only [htgt]
      have hperm2 := splitLeaf_perm r d.id
        { id := s.counter + 1, splitCount := 0, closing := false, rect := fullRect }
        (chooseOrientation s.registry.length orient d) hndl hdid
      refine ⟨?_, ?_, ?_⟩
      · have h1 : (s.registry ++ [s.counter + 1]).Perm ((s.counter + 1) :: s.registry) :=
          List.perm_append_singleton _ _
        have h2 : ((s.counter + 1) :: s.registry).Perm ((s.counter + 1) :: leafIds r) :=
          hp.cons _
        exact (h1.trans h2).trans hperm2.symm
      · have hnodup : ((s.counter + 1) :: s.registry).Nodup :=
          List.nodup_cons.mpr ⟨hfresh, hn⟩
        exact ((List.perm_append_singleton _ _).nodup_iff).mpr hnodup
      · intro i hi
        show i ≤ s.counter + 1
        rcases List.mem_append.mp hi with hi | hi
        · have := hb i hi
          omega
        · simp only [List.mem_singleton] at hi
          omega

lemma inv_close (s : State) (i : Nat) (h : Inv s) : Inv (closeWindow s i) := by
  obtain ⟨hp, hn, hb⟩ := h
  by_cases hmem : i ∈ s.registry
  · rcases hleaf : leafOfIdO s.root i with _ | d
    · rw [show closeWindow s i = s from by simp [closeWindow, hmem, hleaf]]
      exact ⟨hp, hn, hb⟩
    · by_cases hcl : d.closing
      · rw [show closeWindow s i = s from by simp [closeWindow, hmem, hleaf, hcl]]
        exact ⟨hp, hn, hb⟩
      · rw [show closeWindow s i
            = updateLayout
                { s with
                  root := Option.bind s.root (fun r => removeLeafT r i),
                  registry := s.registry.erase i } from by
          simp [closeWindow, hmem, hleaf, hcl]]
        apply inv_updateLayout
        rcases hroot : s.root with _ | r
        · rw [hroot] at hleaf
          simp [leafOfIdO] at hleaf
        · rw [hroot] at hleaf hp
          simp only [leafIdsO] at hp
          have hmemleaf : i ∈ leafIds r := (leafOfId_id r i d hleaf).2
          rcases remove_cases r i (hp.nodup_iff.mp hn) hmemleaf
            with ⟨hnone, hsingle⟩ | ⟨t', ht', hperm⟩
          · have hreg : s.registry = [i] := by
              rw [hsingle] at hp
              exact List.perm_singleton.mp hp
            refine ⟨?_, ?_, ?_⟩
            · simp [hroot, hnone, hreg, leafIdsO]
            · simp [hreg]
            · intro j hj
              simp [hreg] at hj
          · refine ⟨?_, ?_, ?_⟩
            · have h1 : (s.registry.erase i).Perm ((leafIds r).erase i) := hp.erase i
              have h2 : ((leafIds r).erase i).Perm ((i :: leafIds t').erase i) :=
                hperm.erase i
              have h3 : (i :: leafIds t').erase i = leafIds t' := List.erase_cons_head _ _
              rw [h3] at h2
              have hgoal := h1.trans h2
              simp only [hroot, Option.some_bind, ht', leafIdsO]
              exact hgoal
            · exact hn.erase i
            · intro j hj
              exact hb j (List.mem_of_mem_erase hj)
  · rw [show closeWindow s i = s from by simp [closeWindow, hmem]]
    exact ⟨hp, hn, hb⟩

lemma inv_step (s : State) (op : Op) (h : Inv s) : Inv (stepTrace s op).1 := by
  cases op with
  | add rand => exact inv_add s none none rand h
  | addTargeted target orient rand => exact inv_add s target orient rand h
  | splitV target rand => exact inv_add s (some target) (some .vertical) rand h
  | splitH target rand => exact inv_add s (some target) (some .horizontal) rand h
  | close i => exact inv_close s i h
  | resize path raw =>
    obtain ⟨hp, hn, hb⟩ := h
    simp only [stepTrace, resizeMove]
    apply inv_updateLayout
    rcases hroot : s.root with _ | r
    · rw [hroot] at hp
      exact ⟨hp, hn, hb⟩
    · rw [hroot] at hp
      refine ⟨?_, hn, hb⟩
      simp only [hroot, Option.map_some', leafIdsO, leafIds_setRatio]
      simpa [leafIdsO] using hp
  | setGaps gx gy =>
    obtain ⟨hp, hn, hb⟩ := h
    simp only [stepTrace]
    exact inv_updateLayout _ ⟨hp, hn, hb⟩
  | reset rand =>
    exact inv_add { s with root := none, counter := 0, registry := [] } none none rand
      ⟨List.Perm.nil, List.nodup_nil, fun i hi => by simp at hi⟩

lemma inv_execT (ops : List Op) : ∀ s : State, Inv s → Inv (execT s ops).1 := by
  induction ops with
  | nil => intro s h; exact h
  | cons op ops ih => intro s h; exact ih _ (inv_step s op h)

/-- C2: after any sequence of public operations from the empty state, the
registry keys are a permutation of the leaf ids reachable from the tree
root - in particular the key set equals the leaf set, and both are empty
exactly when the root is null. -/
theorem claim_C2 (ops : List Op) :
    (execState ops).registry.Perm (leafIdsO (execState ops).root) :=
  (inv_execT ops initState
    ⟨List.Perm.nil, List.nodup_nil, fun i hi => by simp [initState] at hi⟩).1

end Tiling
